import Mathlib

/-!
Verification of the PyFrac hydraulic-fracture simulator against its
natural-language specification.  The Python source is shallowly embedded:
numpy arrays become lists or index functions, floating point numbers become
rationals (or reals where square roots occur), and early returns with a
status code become Option/Except values.  Every definition mirrors a named
function or a delimited fragment of the Python source.
-/

namespace PyFrac

/-! ## Mesh neighbors (src/mesh_obj/mesh.py, function Neighbors, lines 29-72)

The Python source computes, for a cell index elem of a Cartesian nx-by-ny
mesh, the row index j = elem // nx and column index i = elem % nx, and
returns the tuple (left, right, bottom, up) where a boundary cell is its own
neighbor in the off-grid direction. -/

def Neighbors (elem nx ny : ℕ) : ℕ × ℕ × ℕ × ℕ :=
  let j := elem / nx
  let i := elem % nx
  let left := if i = 0 then elem else j * nx + i - 1
  let right := if i = nx - 1 then elem else j * nx + i + 1
  let bottom := if j = 0 then elem else (j - 1) * nx + i
  let up := if j = ny - 1 then elem else (j + 1) * nx + i
  (left, right, bottom, up)

/-- One row of the NeiElements array: the four neighbors of a cell in the
order [left, right, bottom, up], as stored by CartesianMesh.get_NeiElements
(src/mesh_obj/mesh.py, lines 683-697). -/
def neiRow (elem nx ny : ℕ) : List ℕ :=
  [(Neighbors elem nx ny).1, (Neighbors elem nx ny).2.1,
   (Neighbors elem nx ny).2.2.1, (Neighbors elem nx ny).2.2.2]

/-- The full NeiElements table of CartesianMesh.get_NeiElements: row e holds
the four neighbors of element e. -/
def get_NeiElements (nx ny : ℕ) : List (List ℕ) :=
  (List.range (nx * ny)).map (fun e => neiRow e nx ny)

/-- C9: For every element e of an nx-by-ny mesh, Neighbors returns
(left, right, bottom, top) with left = e - 1 unless e is in the first
column (then left = e), right = e + 1 unless e is in the last column,
bottom = e - nx unless e is in the bottom row, top = e + nx unless e is in
the top row; all four returned indices lie inside the mesh, and the
NeiElements table built by get_NeiElements stores exactly this tuple. -/
theorem Neighbors_spec (e nx ny : ℕ) (he : e < nx * ny) :
    ((e % nx = 0 → (Neighbors e nx ny).1 = e) ∧
     (e % nx ≠ 0 → (Neighbors e nx ny).1 = e - 1)) ∧
    ((e % nx = nx - 1 → (Neighbors e nx ny).2.1 = e) ∧
     (e % nx ≠ nx - 1 → (Neighbors e nx ny).2.1 = e + 1)) ∧
    ((e / nx = 0 → (Neighbors e nx ny).2.2.1 = e) ∧
     (e / nx ≠ 0 → (Neighbors e nx ny).2.2.1 = e - nx)) ∧
    ((e / nx = ny - 1 → (Neighbors e nx ny).2.2.2 = e) ∧
     (e / nx ≠ ny - 1 → (Neighbors e nx ny).2.2.2 = e + nx)) ∧
    ((Neighbors e nx ny).1 < nx * ny ∧ (Neighbors e nx ny).2.1 < nx * ny ∧
     (Neighbors e nx ny).2.2.1 < nx * ny ∧ (Neighbors e nx ny).2.2.2 < nx * ny) ∧
    (get_NeiElements nx ny).getD e [] = neiRow e nx ny := by
  have hnx : 0 < nx := by
    rcases Nat.eq_zero_or_pos nx with h | h
    · subst h; simp at he
    · exact h
  have hny : 0 < ny := by
    rcases Nat.eq_zero_or_pos ny with h | h
    · subst h; simp at he
    · exact h
  have hi : e % nx < nx := Nat.mod_lt _ hnx
  have hj : e / nx < ny := Nat.div_lt_of_lt_mul he
  have hdm : e / nx * nx + e % nx = e := by
    have := Nat.div_add_mod e nx
    rw [Nat.mul_comm] at this
    exact this
  refine ⟨⟨?_, ?_⟩, ⟨?_, ?_⟩, ⟨?_, ?_⟩, ⟨?_, ?_⟩, ⟨?_, ?_, ?_, ?_⟩, ?_⟩
  · intro h; simp [Neighbors, h]
  · intro h; simp only [Neighbors, if_neg h]; omega
  · intro h; simp [Neighbors, h]
  · intro h; simp only [Neighbors, if_neg h]; omega
  · intro h; simp [Neighbors, h]
  · intro h
    simp only [Neighbors, if_neg h]
    rw [Nat.sub_mul, one_mul]
    have h2 : 1 * nx ≤ e / nx * nx := Nat.mul_le_mul_right nx (Nat.pos_of_ne_zero h)
    rw [one_mul] at h2
    omega
  · intro h; simp [Neighbors, h]
  · intro h
    simp only [Neighbors, if_neg h]
    rw [Nat.add_mul, one_mul]
    omega
  · simp only [Neighbors]
    split
    · exact he
    · omega
  · simp only [Neighbors]
    split
    · exact he
    · have hb : (e / nx + 1) * nx ≤ ny * nx := Nat.mul_le_mul_right nx (by omega)
      rw [Nat.mul_comm ny nx, Nat.add_mul, one_mul] at hb
      omega
  · simp only [Neighbors]
    split
    · exact he
    · rw [Nat.sub_mul, one_mul]
      omega
  · simp only [Neighbors]
    split
    · exact he
    · rename_i h
      have hb : (e / nx + 2) * nx ≤ ny * nx := Nat.mul_le_mul_right nx (by omega)
      rw [Nat.mul_comm ny nx, Nat.add_mul] at hb
      rw [Nat.add_mul, one_mul]
      omega
  · show ((List.range (nx * ny)).map (fun e => neiRow e nx ny)).getD e [] = neiRow e nx ny
    rw [List.getD_eq_getElem _ _ (by simpa using he)]
    simp

/-- Witness for Neighbors_spec: concrete evaluation on element 7 of a 5-by-5
mesh, whose four neighbors are 6, 8, 2 and 12. -/
theorem Neighbors_spec_witness :
    (7 : ℕ) < 5 * 5 ∧ Neighbors 7 5 5 = (6, 8, 2, 12) ∧
    (Neighbors 7 5 5).1 < 5 * 5 := by
  refine ⟨by norm_num, by decide, ?_⟩
  exact ((Neighbors_spec 7 5 5 (by norm_num)).2.2.2.2.1).1

/-! ## Toughness-projection loop: level set in the ribbon cells
(src/time_step/ts_explicit_front.py, lines 584-615)

In every iteration of the projection loop the source initializes the level
set to 1e50 everywhere, writes the negated output of TipAsymInversion into
the ribbon cells, and then takes the elementwise minimum with the level set
of the last accepted time step so the front cannot recede there.  The
inversion routine lives in an external module, so its per-cell output is a
parameter inv of the embedding. -/

def ribbonSgndDist (inv prevLS : ℕ → ℚ) (ribbon : List ℕ) (e : ℕ) : ℚ :=
  if e ∈ ribbon then min (-(inv e)) (prevLS e) else 10 ^ 50

/-- C6: in every iteration of the toughness-projection loop, after the
tip-asymptote inversion the signed distance assigned to a ribbon cell is at
most that cell's signed distance at the last accepted time step. -/
theorem ribbon_no_recession (inv prevLS : ℕ → ℚ) (ribbon : List ℕ) (e : ℕ)
    (he : e ∈ ribbon) : ribbonSgndDist inv prevLS ribbon e ≤ prevLS e := by
  rw [ribbonSgndDist, if_pos he]
  exact min_le_right _ _

/-- Witness for ribbon_no_recession: ribbon cell 3 with inversion output 7
and previous value -2 is assigned min (-7) (-2) = -7 which is at most -2. -/
theorem ribbon_no_recession_witness :
    (3 : ℕ) ∈ [2, 3, 4] ∧
    ribbonSgndDist (fun _ => 7) (fun _ => -2) [2, 3, 4] 3 ≤ (fun _ => (-2 : ℚ)) 3 :=
  ⟨by decide, ribbon_no_recession (fun _ => 7) (fun _ => -2) [2, 3, 4] 3 (by decide)⟩

/-! ## Reached end of grid (src/time_step/ts_explicit_front.py, lines 212-217)

The last-time-step Fracture object, restricted to the fields this check
touches or that the claim says must stay untouched. -/

structure Fracture where
  EltChannel : List ℕ
  EltTip : List ℕ
  EltTipBefore : List ℕ
  EltRibbon : List ℕ
  w : ℕ → ℚ
  sgndDist : ℕ → ℚ
  time : ℚ

/-- The end-of-grid check of time_step_explicit_front: if the reconstructed
tip cells intersect the mesh Frontlist, the source stores the old tip set in
EltTipBefore, overwrites EltTip with the new tip cells, and returns exit
status 12 together with the (mutated) last-time-step fracture; otherwise the
step continues (modelled as none). -/
def endOfGridCheck (fr : Fracture) (frontlist tipNew : List ℕ) :
    Option (ℕ × Fracture) :=
  if (frontlist.filter (fun x => x ∈ tipNew)) ≠ [] then
    some (12, { fr with EltTipBefore := fr.EltTip, EltTip := tipNew })
  else none

/-- A concrete last-time-step fracture used in the C2 counterexample. -/
def frC2 : Fracture :=
  { EltChannel := [0], EltTip := [5], EltTipBefore := [], EltRibbon := [0],
    w := fun _ => 1, sgndDist := fun _ => -1, time := 0 }

/-- C2 counterexample: with previous tip set [5], new tip set [6] and
Frontlist [6], the check fires with status 12 but the returned fracture has
tip set [6], not the previous [5]: the last-time-step state is mutated, so
the claim that every field (in particular EltTip) is unchanged is false. -/
theorem endOfGrid_mutates_counterexample :
    (endOfGridCheck frC2 [6] [6]).map (fun p => (p.1, p.2.EltTip)) =
      some (12, [6]) ∧ frC2.EltTip = [5] ∧ ([6] : List ℕ) ≠ [5] := by
  refine ⟨?_, rfl, by decide⟩
  rfl

/-- C2 amended: when the new tip cells intersect the Frontlist, the check
exits with status 12 and returns the last-time-step fracture with EltTip
replaced by the new tip set and the old tip set saved in EltTipBefore; all
remaining fields (channel, ribbon, width, signed distance, time) are
unchanged. -/
theorem endOfGrid_status12 (fr : Fracture) (frontlist tipNew : List ℕ)
    (h : ∃ x ∈ frontlist, x ∈ tipNew) :
    ∃ fr2, endOfGridCheck fr frontlist tipNew = some (12, fr2) ∧
      fr2.EltTip = tipNew ∧ fr2.EltTipBefore = fr.EltTip ∧
      fr2.EltChannel = fr.EltChannel ∧ fr2.EltRibbon = fr.EltRibbon ∧
      fr2.w = fr.w ∧ fr2.sgndDist = fr.sgndDist ∧ fr2.time = fr.time := by
  refine ⟨{ fr with EltTipBefore := fr.EltTip, EltTip := tipNew }, ?_,
    rfl, rfl, rfl, rfl, rfl, rfl, rfl⟩
  rw [endOfGridCheck, if_pos]
  obtain ⟨x, hx1, hx2⟩ := h
  intro hfilter
  have : x ∈ frontlist.filter (fun x => x ∈ tipNew) := by
    rw [List.mem_filter]
    exact ⟨hx1, by simpa using hx2⟩
  rw [hfilter] at this
  exact absurd this (List.not_mem_nil x)

/-- Witness for endOfGrid_status12 at the concrete C2 inputs. -/
theorem endOfGrid_status12_witness :
    (∃ x ∈ [6], x ∈ ([6] : List ℕ)) ∧
    ∃ fr2, endOfGridCheck frC2 [6] [6] = some (12, fr2) ∧
      fr2.EltTip = [6] ∧ fr2.EltTipBefore = frC2.EltTip ∧
      fr2.EltChannel = frC2.EltChannel ∧ fr2.EltRibbon = frC2.EltRibbon ∧
      fr2.w = frC2.w ∧ fr2.sgndDist = frC2.sgndDist ∧ fr2.time = frC2.time :=
  ⟨⟨6, by decide, by decide⟩, endOfGrid_status12 frC2 [6] [6] ⟨6, by decide, by decide⟩⟩

/-! ## Tip width validity check (src/time_step/ts_explicit_front.py, lines 376-383)

After the tip widths are computed, entries that are negative but larger
than -1e-4 times the mean of the array are replaced by their absolute
value; if any entry is still negative, or the sum is zero, the step exits
with status 4 and no new state. -/

/-- np.mean of a list of rationals (sum divided by length). -/
def mean (l : List ℚ) : ℚ := l.sum / l.length

/-- Lines 377-379: clip small negative tip widths to their absolute value.
The mean is taken over the original array. -/
def clipTipWidths (wTip : List ℚ) : List ℚ :=
  wTip.map (fun w => if w < 0 ∧ -(1 / 10000) * mean wTip < w then |w| else w)

/-- Lines 381-383: after clipping, exit with status 4 (evaluated tip volume
is not valid, returned state None) if any width is negative or the sum of
widths is zero; otherwise the step continues with the clipped widths. -/
def tipWidthCheck (wTip : List ℚ) : Except ℕ (List ℚ) :=
  if (∃ w ∈ clipTipWidths wTip, w < 0) ∨ (clipTipWidths wTip).sum = 0 then
    Except.error 4
  else Except.ok (clipTipWidths wTip)

/-- C4: a negative tip width whose magnitude is less than 1e-4 times the
mean tip width is replaced by its absolute value; the step exits with
status 4 exactly when a clipped width is still negative or the sum is zero;
hence every step that proceeds past the check has all tip widths
nonnegative with positive sum. -/
theorem tipWidth_check_spec (wTip : List ℚ) (i : ℕ) (hi : i < wTip.length) :
    (wTip.getD i 0 < 0 → |wTip.getD i 0| < 1 / 10000 * mean wTip →
      (clipTipWidths wTip).getD i 0 = |wTip.getD i 0|) ∧
    (tipWidthCheck wTip = Except.error 4 ↔
      ((∃ w ∈ clipTipWidths wTip, w < 0) ∨ (clipTipWidths wTip).sum = 0)) ∧
    (∀ res, tipWidthCheck wTip = Except.ok res →
      res = clipTipWidths wTip ∧ (∀ w ∈ res, 0 ≤ w) ∧ 0 < res.sum) := by
  refine ⟨?_, ?_, ?_⟩
  · intro hneg habs
    have hlen : i < (clipTipWidths wTip).length := by
      simpa [clipTipWidths] using hi
    rw [List.getD_eq_getElem _ _ hi] at hneg habs ⊢
    rw [List.getD_eq_getElem _ _ hlen]
    simp only [clipTipWidths, List.getElem_map]
    rw [if_pos]
    refine ⟨hneg, ?_⟩
    rw [abs_of_neg hneg] at habs
    linarith
  · rw [tipWidthCheck]
    split
    · simp_all
    · simp_all
  · intro res hres
    rw [tipWidthCheck] at hres
    split at hres
    · exact absurd hres (by simp)
    · rename_i hcond
      push_neg at hcond
      obtain ⟨hpos, hsum⟩ := hcond
      have hres' : res = clipTipWidths wTip := by
        simpa using hres.symm
      subst hres'
      refine ⟨rfl, hpos, ?_⟩
      have h0 : 0 ≤ (clipTipWidths wTip).sum := List.sum_nonneg hpos
      exact lt_of_le_of_ne h0 (Ne.symm hsum)

/-- Witness for tipWidth_check_spec: wTip = [4, -1/100000]; the mean is
399999/200000, the small negative entry is within the relative tolerance
and is clipped to 1/100000, the check passes, and the resulting widths are
nonnegative with positive sum. -/
theorem tipWidth_check_spec_witness :
    ((1 : ℕ) < ([4, -1/100000] : List ℚ).length) ∧
    (([4, -1/100000] : List ℚ).getD 1 0 < 0) ∧
    (|([4, -1/100000] : List ℚ).getD 1 0| < 1 / 10000 * mean [4, -1/100000]) ∧
    (clipTipWidths [4, -1/100000]).getD 1 0 = |([4, -1/100000] : List ℚ).getD 1 0| ∧
    (∀ res, tipWidthCheck [4, -1/100000] = Except.ok res →
      res = clipTipWidths [4, -1/100000] ∧ (∀ w ∈ res, 0 ≤ w) ∧ 0 < res.sum) := by
  have hlen : (1 : ℕ) < ([4, -1/100000] : List ℚ).length := by norm_num
  have h := tipWidth_check_spec [4, -1/100000] 1 hlen
  have h2 : (([4, -1/100000] : List ℚ).getD 1 0 < 0) := by
    norm_num [List.getD_cons_succ, List.getD_cons_zero]
  have h3 : (|([4, -1/100000] : List ℚ).getD 1 0| < 1 / 10000 * mean [4, -1/100000]) := by
    norm_num [List.getD_cons_succ, List.getD_cons_zero, mean, abs]
  exact ⟨hlen, h2, h3, h.1 h2 h3, h.2.2⟩

/-! ## Filling fraction check (src/time_step/ts_explicit_front.py, lines 237-243)

Filling fractions strictly between 1 and 1 + 1e-4 are rounded to exactly 1;
then the step exits with status 9 and no new state if any value exceeds 1
or lies below 0 - eps, where eps is the double-precision machine epsilon. -/

/-- np.finfo(float).eps, the IEEE double machine epsilon 2^-52. -/
def machineEps : ℚ := 1 / 2 ^ 52

/-- Line 238: round filling fractions strictly between 1 and 1 + 1e-4 to 1. -/
def roundFillFrac (f : List ℚ) : List ℚ :=
  f.map (fun x => if 1 < x ∧ x < 1 + 1 / 10000 then 1 else x)

/-- Lines 241-243: exit with status 9 (filling fraction not correct,
returned state None) if any rounded value exceeds 1 or is below
0 - machineEps. -/
def fillFracCheck (f : List ℚ) : Except ℕ (List ℚ) :=
  if (∃ x ∈ roundFillFrac f, 1 < x) ∨ (∃ x ∈ roundFillFrac f, x < 0 - machineEps) then
    Except.error 9
  else Except.ok (roundFillFrac f)

/-- C5 counterexample: the single filling fraction -2^-53 is negative yet
passes the check unchanged (it is not below -machineEps = -2^-52), so a step
that continues past the check does not satisfy 0 <= fillingFraction. -/
theorem fillFrac_negative_counterexample :
    fillFracCheck [-(1 / 2 ^ 53)] = Except.ok [-(1 / 2 ^ 53)] ∧
    ¬ ((0 : ℚ) ≤ -(1 / 2 ^ 53)) := by
  have hround : roundFillFrac [-(1 / 2 ^ 53)] = [-(1 / 2 ^ 53)] := by
    simp only [roundFillFrac, List.map_cons, List.map_nil]
    rw [if_neg]
    push_neg
    intro h
    norm_num at h
  constructor
  · rw [fillFracCheck, hround, if_neg]
    push_neg
    refine ⟨fun x hx => ?_, fun x hx => ?_⟩ <;>
      simp only [List.mem_singleton] at hx <;> subst hx <;>
      norm_num [machineEps]
  · norm_num

/-- C5 amended: values strictly between 1 and 1 + 1e-4 are rounded to
exactly 1; the step exits with status 9 exactly when a rounded value
exceeds 1 or lies below -machineEps; hence every step that continues past
the check has -machineEps <= fillingFraction <= 1 for every tip cell (the
lower bound is -machineEps, not 0). -/
theorem fillFrac_check_spec (f : List ℚ) (i : ℕ) (hi : i < f.length) :
    (1 < f.getD i 0 → f.getD i 0 < 1 + 1 / 10000 →
      (roundFillFrac f).getD i 0 = 1) ∧
    (fillFracCheck f = Except.error 9 ↔
      ((∃ x ∈ roundFillFrac f, 1 < x) ∨ (∃ x ∈ roundFillFrac f, x < -machineEps))) ∧
    (∀ res, fillFracCheck f = Except.ok res →
      res = roundFillFrac f ∧ ∀ x ∈ res, -machineEps ≤ x ∧ x ≤ 1) := by
  refine ⟨?_, ?_, ?_⟩
  · intro h1 h2
    have hlen : i < (roundFillFrac f).length := by
      simpa [roundFillFrac] using hi
    rw [List.getD_eq_getElem _ _ hi] at h1 h2
    rw [List.getD_eq_getElem _ _ hlen]
    simp only [roundFillFrac, List.getElem_map]
    rw [if_pos ⟨h1, h2⟩]
  · rw [fillFracCheck]
    split
    · rename_i hcond
      simp only [zero_sub] at hcond
      simp_all
    · rename_i hcond
      simp only [zero_sub] at hcond
      simp_all
  · intro res hres
    rw [fillFracCheck] at hres
    split at hres
    · exact absurd hres (by simp)
    · rename_i hcond
      push_neg at hcond
      obtain ⟨hup, hlow⟩ := hcond
      have hres' : res = roundFillFrac f := by simpa using hres.symm
      subst hres'
      refine ⟨rfl, fun x hx => ⟨?_, hup x hx⟩⟩
      have := hlow x hx
      linarith

/-- Witness for fillFrac_check_spec: filling fractions [1/2, 1 + 1/20000];
the second value is rounded to exactly 1 and the check passes with both
values in [-machineEps, 1]. -/
theorem fillFrac_check_spec_witness :
    ((1 : ℕ) < ([1/2, 1 + 1/20000] : List ℚ).length) ∧
    (roundFillFrac [1/2, 1 + 1/20000]).getD 1 0 = 1 ∧
    (∀ res, fillFracCheck [1/2, 1 + 1/20000] = Except.ok res →
      res = roundFillFrac [1/2, 1 + 1/20000] ∧
      ∀ x ∈ res, -machineEps ≤ x ∧ x ≤ 1) := by
  have hlen : (1 : ℕ) < ([1/2, 1 + 1/20000] : List ℚ).length := by norm_num
  have h := fillFrac_check_spec [1/2, 1 + 1/20000] 1 hlen
  have h1 : (1 : ℚ) < ([1/2, 1 + 1/20000] : List ℚ).getD 1 0 := by
    norm_num [List.getD_cons_succ, List.getD_cons_zero]
  have h2 : ([1/2, 1 + 1/20000] : List ℚ).getD 1 0 < 1 + 1 / 10000 := by
    norm_num [List.getD_cons_succ, List.getD_cons_zero]
  exact ⟨hlen, h.1 h1 h2, h.2.2⟩

/-! ## Volume control and mechanical loading systems
(src/systems/sys_volume_and_load_control.py)

Matrices are lists of rows of rationals; the dense elasticity operator C is
an index function, and numpy fancy indexing C[np.ix_(I, J)] becomes a map
over the index lists.  np.hstack with a column, np.vstack with a row and
the in-place assignment A[-1, -1] = 0 are modelled directly. -/

/-- np.dot of two one-dimensional arrays. -/
def dot (u v : List ℚ) : ℚ := (List.zipWith (· * ·) u v).sum

/-- np.hstack of a matrix with one extra column. -/
def hstackCol (M : List (List ℚ)) (c : List ℚ) : List (List ℚ) :=
  List.zipWith (fun row x => row ++ [x]) M c

/-- In-place assignment A[-1, -1] = 0: replace the last entry of the last
row by zero. -/
def setLastEntryZero (M : List (List ℚ)) : List (List ℚ) :=
  M.dropLast ++ [(M.getLastD []).dropLast ++ [0]]

/-- MakeEquationSystem_volumeControl (lines 86-102): the system matrix is
the Channel-Channel elasticity block extended by a column of -1, a row of
ones and a zero corner; the right side is the elastic balance of the
channel cells followed by the global volume balance. -/
def MakeEquationSystem_volumeControl (w_lst_tmstp : ℕ → ℚ) (wTip : List ℚ)
    (EltChannel EltTip : List ℕ) (sigma_o : ℕ → ℚ) (C : ℕ → ℕ → ℚ)
    (dt : ℚ) (Q : List ℚ) (ElemArea : ℚ) (lkOff : List ℚ) :
    List (List ℚ) × List ℚ :=
  let n := EltChannel.length
  let Ccc := EltChannel.map (fun ei => EltChannel.map (fun ej => C ei ej))
  let A1 := hstackCol Ccc (List.replicate n (-1))
  let A := setLastEntryZero (A1 ++ [List.replicate (n + 1) 1])
  let S1 := EltChannel.map (fun ei =>
      -sigma_o ei - dot (EltChannel.map (fun ej => C ei ej)) (EltChannel.map w_lst_tmstp)
        - dot (EltTip.map (fun ej => C ei ej)) wTip)
  let S := S1 ++ [Q.sum * dt / ElemArea - (wTip.sum - (EltTip.map w_lst_tmstp).sum) - lkOff.sum]
  (A, S)

/-- MakeEquationSystem_volumeControl_symmetric (lines 13-32): same
structure, but the appended row holds the symmetry-class volume weights of
the channel cells (with a trailing zero), the previous widths are looked up
through the sym_elements correspondence and the volume balance uses the
given tip increment dwTip. -/
def MakeEquationSystem_volumeControl_symmetric (w_lst_tmstp : ℕ → ℚ)
    (wTip_sym : List ℚ) (EltChannel_sym EltTip_sym : List ℕ) (C_s : ℕ → ℕ → ℚ)
    (dt : ℚ) (Q : List ℚ) (sigma_o : ℕ → ℚ) (ElemArea : ℚ) (LkOff : List ℚ)
    (vol_weights : ℕ → ℚ) (sym_elements : ℕ → ℕ) (dwTip : List ℚ) :
    List (List ℚ) × List ℚ :=
  let n := EltChannel_sym.length
  let Ccc := EltChannel_sym.map (fun ei => EltChannel_sym.map (fun ej => C_s ei ej))
  let A1 := hstackCol Ccc (List.replicate n (-1))
  let weights := (EltChannel_sym.map vol_weights) ++ [0]
  let A := A1 ++ [weights]
  let S1 := EltChannel_sym.map (fun ei =>
      -sigma_o ei - dot (EltChannel_sym.map (fun ej => C_s ei ej))
          (EltChannel_sym.map (fun ej => w_lst_tmstp (sym_elements ej)))
        - dot (EltTip_sym.map (fun ej => C_s ei ej)) wTip_sym)
  let S := S1 ++ [Q.sum * dt / ElemArea - dwTip.sum - LkOff.sum]
  (A, S)

/-- Length of an hstackCol result. -/
theorem hstackCol_length (M : List (List ℚ)) (c : List ℚ) :
    (hstackCol M c).length = min M.length c.length := by
  simp [hstackCol]

/-- Row i of an hstackCol result. -/
theorem hstackCol_getD (M : List (List ℚ)) (c : List ℚ) (i : ℕ)
    (h1 : i < M.length) (h2 : i < c.length) :
    (hstackCol M c).getD i [] = M.getD i [] ++ [c.getD i 0] := by
  have hlen : i < (hstackCol M c).length := by
    rw [hstackCol_length]; omega
  rw [List.getD_eq_getElem _ _ hlen, List.getD_eq_getElem _ _ h1,
    List.getD_eq_getElem _ _ h2]
  simp [hstackCol]

/-- getD at the position of the appended element. -/
theorem getD_concat_self {α : Type} (l : List α) (a d : α) :
    (l ++ [a]).getD l.length d = a := by
  rw [List.getD_eq_getElem _ _ (by simp)]
  simp

/-- getD at any index equal to the length of the prefix. -/
theorem getD_concat_of_length {α : Type} (l : List α) (a d : α) (m : ℕ)
    (hm : m = l.length) : (l ++ [a]).getD m d = a := by
  subst hm
  exact getD_concat_self l a d

/-- getD through a map, for an index inside the list. -/
theorem getD_map {α β : Type} (l : List α) (f : α → β) (i : ℕ)
    (h : i < l.length) (d : α) (d2 : β) :
    (l.map f).getD i d2 = f (l.getD i d) := by
  rw [List.getD_eq_getElem _ _ (by simpa), List.getD_eq_getElem _ _ h]
  simp

/-- Structure of the volume-control system matrix: the hstacked
Channel-Channel block with the -1 column, followed by the ones row whose
corner has been zeroed. -/
theorem volumeControl_A (w_lst_tmstp : ℕ → ℚ) (wTip : List ℚ)
    (EltChannel EltTip : List ℕ) (sigma_o : ℕ → ℚ) (C : ℕ → ℕ → ℚ)
    (dt : ℚ) (Q : List ℚ) (ElemArea : ℚ) (lkOff : List ℚ) :
    (MakeEquationSystem_volumeControl w_lst_tmstp wTip EltChannel EltTip
        sigma_o C dt Q ElemArea lkOff).1 =
      hstackCol (EltChannel.map (fun ei => EltChannel.map (fun ej => C ei ej)))
          (List.replicate EltChannel.length (-1)) ++
        [List.replicate EltChannel.length 1 ++ [0]] := by
  show setLastEntryZero
      (hstackCol (EltChannel.map (fun ei => EltChannel.map (fun ej => C ei ej)))
          (List.replicate EltChannel.length (-1)) ++
        [List.replicate (EltChannel.length + 1) 1]) = _
  rw [setLastEntryZero, List.dropLast_concat]
  have h1 : ((hstackCol (EltChannel.map (fun ei => EltChannel.map (fun ej => C ei ej)))
          (List.replicate EltChannel.length (-1)) ++
        [List.replicate (EltChannel.length + 1) (1 : ℚ)]).getLastD []) =
      List.replicate (EltChannel.length + 1) (1 : ℚ) := by simp
  rw [h1, List.replicate_succ' EltChannel.length (1 : ℚ), List.dropLast_concat]

/-- C1: the volume-control system is (n+1)-by-(n+1) with the
Channel-Channel elasticity block in the top-left n-by-n corner, -1 in the
last column of the first n rows, 1 in the first n columns of the last row
and 0 in the corner; the right side holds the elastic balance
-sigma - Ccc.w - Cct.wTip of each channel cell followed by the volume
balance sum(Q)dt/A - (sum(wTip) - sum(w(tip))) - sum(lkOff); in the
symmetric variant the last row instead carries the symmetry-class volume
weights of the channel cells (with zero corner). -/
theorem volumeControl_assembly (w_lst_tmstp : ℕ → ℚ) (wTip : List ℚ)
    (EltChannel EltTip : List ℕ) (sigma_o : ℕ → ℚ) (C : ℕ → ℕ → ℚ)
    (dt : ℚ) (Q : List ℚ) (ElemArea : ℚ) (lkOff : List ℚ)
    (vol_weights : ℕ → ℚ) (sym_elements : ℕ → ℕ) (dwTip : List ℚ)
    (i j n : ℕ) (A As : List (List ℚ)) (S Ss : List ℚ)
    (hi : i < EltChannel.length) (hj : j < EltChannel.length)
    (hn : n = EltChannel.length)
    (hAS : MakeEquationSystem_volumeControl w_lst_tmstp wTip EltChannel
      EltTip sigma_o C dt Q ElemArea lkOff = (A, S))
    (hAsys : MakeEquationSystem_volumeControl_symmetric w_lst_tmstp wTip
      EltChannel EltTip C dt Q sigma_o ElemArea lkOff vol_weights
      sym_elements dwTip = (As, Ss)) :
    A.length = n + 1 ∧
    (∀ k, k ≤ n → (A.getD k []).length = n + 1) ∧
    (A.getD i []).getD j 0 = C (EltChannel.getD i 0) (EltChannel.getD j 0) ∧
    (A.getD i []).getD n 0 = -1 ∧
    (A.getD n []).getD j 0 = 1 ∧
    (A.getD n []).getD n 0 = 0 ∧
    S.length = n + 1 ∧
    S.getD i 0 = -sigma_o (EltChannel.getD i 0)
      - dot (EltChannel.map (fun ej => C (EltChannel.getD i 0) ej))
          (EltChannel.map w_lst_tmstp)
      - dot (EltTip.map (fun ej => C (EltChannel.getD i 0) ej)) wTip ∧
    S.getD n 0 = Q.sum * dt / ElemArea
      - (wTip.sum - (EltTip.map w_lst_tmstp).sum) - lkOff.sum ∧
    (As.getD n []).getD j 0 = vol_weights (EltChannel.getD j 0) ∧
    (As.getD n []).getD n 0 = 0 := by
  have hA0 : A = (MakeEquationSystem_volumeControl w_lst_tmstp wTip EltChannel
      EltTip sigma_o C dt Q ElemArea lkOff).1 := by rw [hAS]
  have hS0 : S = (MakeEquationSystem_volumeControl w_lst_tmstp wTip EltChannel
      EltTip sigma_o C dt Q ElemArea lkOff).2 := by rw [hAS]
  have hAs0 : As = (MakeEquationSystem_volumeControl_symmetric w_lst_tmstp wTip
      EltChannel EltTip C dt Q sigma_o ElemArea lkOff vol_weights
      sym_elements dwTip).1 := by rw [hAsys]
  subst hA0 hS0 hAs0 hn
  set n := EltChannel.length with hn
  set A := (MakeEquationSystem_volumeControl w_lst_tmstp wTip EltChannel
    EltTip sigma_o C dt Q ElemArea lkOff).1 with hAdef
  set S := (MakeEquationSystem_volumeControl w_lst_tmstp wTip EltChannel
    EltTip sigma_o C dt Q ElemArea lkOff).2 with hSdef
  set As := (MakeEquationSystem_volumeControl_symmetric w_lst_tmstp wTip
    EltChannel EltTip C dt Q sigma_o ElemArea lkOff vol_weights
    sym_elements dwTip).1 with hAsdef
  have hA : A = hstackCol (EltChannel.map (fun ei => EltChannel.map (fun ej => C ei ej)))
      (List.replicate n (-1)) ++ [List.replicate n 1 ++ [0]] :=
    volumeControl_A w_lst_tmstp wTip EltChannel EltTip sigma_o C dt Q ElemArea lkOff
  have hBlen : (hstackCol (EltChannel.map (fun ei => EltChannel.map (fun ej => C ei ej)))
      (List.replicate n (-1))).length = n := by
    rw [hstackCol_length]
    simp [n]
  have hrow : ∀ k, k < n → A.getD k [] =
      (EltChannel.map (fun ej => C (EltChannel.getD k 0) ej)) ++ [-1] := by
    intro k hk
    rw [hA, List.getD_append _ _ _ _ (by omega), hstackCol_getD _ _ _
      (by simp [n]; omega) (by simp; omega)]
    rw [getD_map _ _ _ (by simp [n] at hk ⊢; omega) 0 []]
    congr 1
    rw [List.getD_eq_getElem _ _ (by simp; omega)]
    simp
  have hlast : A.getD n [] = List.replicate n (1 : ℚ) ++ [0] := by
    rw [hA]
    exact getD_concat_of_length _ _ _ _ hBlen.symm
  have hS : S = (EltChannel.map (fun ei =>
      -sigma_o ei - dot (EltChannel.map (fun ej => C ei ej)) (EltChannel.map w_lst_tmstp)
        - dot (EltTip.map (fun ej => C ei ej)) wTip)) ++
      [Q.sum * dt / ElemArea - (wTip.sum - (EltTip.map w_lst_tmstp).sum) - lkOff.sum] := rfl
  have hAs : As = hstackCol (EltChannel.map (fun ei => EltChannel.map (fun ej => C ei ej)))
      (List.replicate n (-1)) ++ [(EltChannel.map vol_weights) ++ [0]] := rfl
  have hAslast : As.getD n [] = (EltChannel.map vol_weights) ++ [0] := by
    rw [hAs]
    exact getD_concat_of_length _ _ _ _ hBlen.symm
  refine ⟨?_, ?_, ?_, ?_, ?_, ?_, ?_, ?_, ?_, ?_, ?_⟩
  · rw [hA]
    simp [hBlen]
  · intro k hk
    rcases Nat.lt_or_ge k n with h | h
    · rw [hrow k h]
      simp [n]
    · have hk' : k = n := by omega
      rw [hk', hlast]
      simp
  · rw [hrow i hi, List.getD_append _ _ _ _ (by simpa using hj),
      getD_map _ _ _ hj 0 0]
  · rw [hrow i hi]
    exact getD_concat_of_length _ _ _ _ (by simp [n])
  · rw [hlast, List.getD_append _ _ _ _ (by simpa using hj),
      List.getD_eq_getElem _ _ (by simpa using hj)]
    simp
  · rw [hlast]
    exact getD_concat_of_length _ _ _ _ (by simp)
  · rw [hS]
    simp [n]
  · rw [hS, List.getD_append _ _ _ _ (by simpa using hi), getD_map _ _ _ hi 0 0]
  · rw [hS]
    exact getD_concat_of_length _ _ _ _ (by simp [n])
  · rw [hAslast, List.getD_append _ _ _ _ (by simpa using hj),
      getD_map _ _ _ hj 0 0]
  · rw [hAslast]
    exact getD_concat_of_length _ _ _ _ (by simp [n])

/-- Witness for volumeControl_assembly: a concrete 2-channel, 1-tip system
with channel cells [3, 5], tip cell 4, elasticity C a b = 10a + b,
confining stress e + 1, previous width e, tip width 7, dt = 2, Q = 10,
cell area 4 and leak-off 1; the claimed entries evaluate to concrete
numbers. -/
theorem volumeControl_assembly_witness :
    ((MakeEquationSystem_volumeControl (fun e => (e : ℚ)) [7] [3, 5] [4]
        (fun e => (e : ℚ) + 1) (fun a b => (a : ℚ) * 10 + (b : ℚ)) 2 [10] 4
        [1]).1.getD 0 []).getD 1 0 = 35 ∧
    ((MakeEquationSystem_volumeControl (fun e => (e : ℚ)) [7] [3, 5] [4]
        (fun e => (e : ℚ) + 1) (fun a b => (a : ℚ) * 10 + (b : ℚ)) 2 [10] 4
        [1]).1.getD 0 []).getD 2 0 = -1 ∧
    ((MakeEquationSystem_volumeControl (fun e => (e : ℚ)) [7] [3, 5] [4]
        (fun e => (e : ℚ) + 1) (fun a b => (a : ℚ) * 10 + (b : ℚ)) 2 [10] 4
        [1]).1.getD 2 []).getD 1 0 = 1 ∧
    ((MakeEquationSystem_volumeControl (fun e => (e : ℚ)) [7] [3, 5] [4]
        (fun e => (e : ℚ) + 1) (fun a b => (a : ℚ) * 10 + (b : ℚ)) 2 [10] 4
        [1]).1.getD 2 []).getD 2 0 = 0 ∧
    (MakeEquationSystem_volumeControl (fun e => (e : ℚ)) [7] [3, 5] [4]
        (fun e => (e : ℚ) + 1) (fun a b => (a : ℚ) * 10 + (b : ℚ)) 2 [10] 4
        [1]).2.getD 0 0 = -516 ∧
    (MakeEquationSystem_volumeControl (fun e => (e : ℚ)) [7] [3, 5] [4]
        (fun e => (e : ℚ) + 1) (fun a b => (a : ℚ) * 10 + (b : ℚ)) 2 [10] 4
        [1]).2.getD 2 0 = 1 ∧
    ((MakeEquationSystem_volumeControl_symmetric (fun e => (e : ℚ)) [7] [3, 5]
        [4] (fun a b => (a : ℚ) * 10 + (b : ℚ)) 2 [10] (fun e => (e : ℚ) + 1) 4
        [1] (fun e => (e : ℚ) + 100) (fun e => e) [7]).1.getD 2 []).getD 1 0 = 105 := by
  have h := volumeControl_assembly (fun e => (e : ℚ)) [7] [3, 5] [4]
    (fun e => (e : ℚ) + 1) (fun a b => (a : ℚ) * 10 + (b : ℚ)) 2 [10] 4 [1]
    (fun e => (e : ℚ) + 100) (fun e => e) [7] 0 1 2
    (MakeEquationSystem_volumeControl (fun e => (e : ℚ)) [7] [3, 5] [4]
      (fun e => (e : ℚ) + 1) (fun a b => (a : ℚ) * 10 + (b : ℚ)) 2 [10] 4 [1]).1
    (MakeEquationSystem_volumeControl_symmetric (fun e => (e : ℚ)) [7] [3, 5]
      [4] (fun a b => (a : ℚ) * 10 + (b : ℚ)) 2 [10] (fun e => (e : ℚ) + 1) 4
      [1] (fun e => (e : ℚ) + 100) (fun e => e) [7]).1
    (MakeEquationSystem_volumeControl (fun e => (e : ℚ)) [7] [3, 5] [4]
      (fun e => (e : ℚ) + 1) (fun a b => (a : ℚ) * 10 + (b : ℚ)) 2 [10] 4 [1]).2
    (MakeEquationSystem_volumeControl_symmetric (fun e => (e : ℚ)) [7] [3, 5]
      [4] (fun a b => (a : ℚ) * 10 + (b : ℚ)) 2 [10] (fun e => (e : ℚ) + 1) 4
      [1] (fun e => (e : ℚ) + 100) (fun e => e) [7]).2
    (by norm_num) (by norm_num) rfl rfl rfl
  obtain ⟨-, -, h3, h4, h5, h6, -, h8, h9, h10, -⟩ := h
  refine ⟨?_, ?_, ?_, ?_, ?_, ?_, ?_⟩
  · rw [h3]; norm_num
  · exact h4
  · exact h5
  · exact h6
  · rw [h8]; norm_num [dot]
  · rw [h9]; norm_num
  · rw [h10]; norm_num

/-- The first EltChannel.length entries of the final row of the
mechanical-loading system: zeros with ones written at
np.where(EltChannel == EltLoaded)[0].  The numpy comparison broadcasts: a
single loaded element is compared against every channel entry, a loaded
array of the same length is compared position by position, and any other
shape fails to broadcast so the comparison collapses to a scalar False and
no entry is set (shapes that would broadcast beyond the row length raise
in numpy and are not modelled). -/
def whereEqRow (EltChannel EltLoaded : List ℕ) : List ℚ :=
  if EltLoaded.length = 1 then
    EltChannel.map (fun c => if c = EltLoaded.getD 0 0 then (1 : ℚ) else 0)
  else if EltLoaded.length = EltChannel.length then
    List.zipWith (fun c l => if c = l then (1 : ℚ) else 0) EltChannel EltLoaded
  else
    EltChannel.map (fun _ => (0 : ℚ))

/-- MakeEquationSystem_mechLoading (lines 108-125): the elasticity rows
with the -1 pressure column, and a final row that starts as zeros and gets
a 1 wherever the elementwise numpy comparison EltChannel == EltLoaded
holds (A[-1, np.where(EltChannel == EltLoaded)[0]] = 1); the right side is
-Cct.wTip followed by the prescribed width w_loaded. -/
def MakeEquationSystem_mechLoading (wTip : List ℚ) (EltChannel EltTip : List ℕ)
    (C : ℕ → ℕ → ℚ) (EltLoaded : List ℕ) (w_loaded : ℚ) :
    List (List ℚ) × List ℚ :=
  let n := EltChannel.length
  let Ccc := EltChannel.map (fun ei => EltChannel.map (fun ej => C ei ej))
  let A1 := hstackCol Ccc (List.replicate n (-1))
  let lastRow := whereEqRow EltChannel EltLoaded ++ [0]
  let A := A1 ++ [lastRow]
  let S := (EltChannel.map (fun ei => -(dot (EltTip.map (fun ej => C ei ej)) wTip)))
    ++ [w_loaded]
  (A, S)

/-- Matrix-vector product, row by row. -/
def matVec (M : List (List ℚ)) (x : List ℚ) : List ℚ :=
  M.map (fun row => dot row x)

theorem dot_nil_left (v : List ℚ) : dot [] v = 0 := rfl

theorem dot_nil_right (u : List ℚ) : dot u [] = 0 := by
  cases u <;> rfl

theorem dot_cons_cons (a b : ℚ) (u v : List ℚ) :
    dot (a :: u) (b :: v) = a * b + dot u v := rfl

/-- Appending a zero coefficient never changes a dot product. -/
theorem dot_concat_zero (l : List ℚ) : ∀ x : List ℚ, dot (l ++ [0]) x = dot l x := by
  induction l with
  | nil =>
    intro x
    cases x with
    | nil => rfl
    | cons xh xt => simp [dot_nil_left, dot_cons_cons]
  | cons a l ih =>
    intro x
    cases x with
    | nil => simp [dot_nil_right]
    | cons xh xt =>
      rw [List.cons_append, dot_cons_cons, dot_cons_cons, ih xt]

/-- A dot product against an equality indicator that never matches
vanishes. -/
theorem dot_indicator_zero (e : ℕ) (ch : List ℕ) :
    ∀ x : List ℚ, (∀ c ∈ ch, c ≠ e) →
      dot (ch.map (fun c => if c = e then (1 : ℚ) else 0)) x = 0 := by
  induction ch with
  | nil => intro x _; rfl
  | cons c ch ih =>
    intro x h
    cases x with
    | nil => simp [dot_nil_right]
    | cons xh xt =>
      rw [List.map_cons, dot_cons_cons, if_neg (h c (List.mem_cons_self c ch)),
        ih xt (fun c2 hc2 => h c2 (List.mem_cons_of_mem c hc2))]
      ring

/-- A dot product against an equality indicator that matches exactly one
position returns the entry of the vector at that position. -/
theorem dot_indicator_single (e : ℕ) : ∀ (ch : List ℕ) (x : List ℚ)
    (i0 : ℕ), i0 < ch.length → ch.length ≤ x.length →
    ch.getD i0 0 = e → (∀ i, i < ch.length → i ≠ i0 → ch.getD i 0 ≠ e) →
    dot (ch.map (fun c => if c = e then (1 : ℚ) else 0)) x = x.getD i0 0 := by
  intro ch
  induction ch with
  | nil => intro x i0 h0; simp at h0
  | cons c ch ih =>
    intro x i0 h0 hxlen hmem hothers
    cases x with
    | nil => simp at hxlen
    | cons xh xt =>
      cases i0 with
      | zero =>
        rw [List.getD_cons_zero] at hmem
        rw [List.map_cons, dot_cons_cons, if_pos hmem, List.getD_cons_zero]
        rw [dot_indicator_zero e ch xt ?_]
        · ring
        · intro c2 hc2
          obtain ⟨k, hk, hck⟩ := List.mem_iff_getElem.mp hc2
          have h2 := hothers (k + 1) (by simpa using Nat.succ_lt_succ hk) (by omega)
          rw [List.getD_cons_succ, List.getD_eq_getElem _ _ hk, hck] at h2
          exact h2
      | succ k =>
        have hc : c ≠ e := by
          have h2 := hothers 0 (by simp) (by omega)
          rwa [List.getD_cons_zero] at h2
        rw [List.map_cons, dot_cons_cons, if_neg hc, List.getD_cons_succ]
        rw [List.getD_cons_succ] at hmem
        rw [ih xt k (by simpa using h0) (by simpa using hxlen) hmem ?_]
        · ring
        · intro i2 hi2 hne
          have h2 := hothers (i2 + 1) (by simpa using Nat.succ_lt_succ hi2) (by omega)
          rwa [List.getD_cons_succ] at h2

/-- C7 counterexample: channel cells [0, 1] with loaded subset passed as
the array [1, 0].  Both loaded elements are channel cells, so the claim
demands a 1 in the column of each of their positions, but numpy compares
the arrays elementwise ([0 == 1, 1 == 0] is all False) and the assembled
final row is entirely zero: the system carries no Dirichlet row for the
loaded cells at all. -/
theorem mechLoading_elementwise_counterexample :
    (([0, 1] : List ℕ).getD 0 0) ∈ ([1, 0] : List ℕ) ∧
    (([0, 1] : List ℕ).getD 1 0) ∈ ([1, 0] : List ℕ) ∧
    ((MakeEquationSystem_mechLoading [] [0, 1] [] (fun _ _ => 0)
        [1, 0] 2).1.getD 2 []).getD 0 0 = 0 ∧
    ((MakeEquationSystem_mechLoading [] [0, 1] [] (fun _ _ => 0)
        [1, 0] 2).1.getD 2 []).getD 1 0 = 0 ∧
    ((0 : ℚ) ≠ 1) := by
  have hwhere : whereEqRow [0, 1] [1, 0] = [0, 0] := by
    rw [whereEqRow, if_neg (by norm_num), if_pos (by norm_num)]
    norm_num
  have hlastrow : (MakeEquationSystem_mechLoading [] [0, 1] [] (fun _ _ => 0)
      [1, 0] 2).1.getD 2 [] = ([0, 0, 0] : List ℚ) := by
    show (hstackCol (([0, 1] : List ℕ).map
          (fun ei => ([0, 1] : List ℕ).map (fun ej => (fun _ _ => (0 : ℚ)) ei ej)))
        (List.replicate 2 (-1)) ++ [whereEqRow [0, 1] [1, 0] ++ [0]]).getD 2 []
      = ([0, 0, 0] : List ℚ)
    rw [getD_concat_of_length _ _ _ _ (by rw [hstackCol_length]; norm_num), hwhere]
    rfl
  refine ⟨by norm_num, by norm_num, ?_, ?_, by norm_num⟩ <;>
    rw [hlastrow] <;> norm_num [List.getD_cons_zero, List.getD_cons_succ]

/-- C7 amended: for a SINGLE loaded element e the broadcast comparison
marks the position of every channel cell equal to e, so the system has the
elasticity block and the -1 column in its first n rows with right side
-Cct.wTip, and a final row holding 1 exactly where the channel cell is e,
with right side w_loaded; when e occurs at exactly one channel position,
any solution of the system carries the prescribed width there.  For a
multi-element loaded subset numpy compares the arrays elementwise, so no
per-cell Dirichlet row is assembled (see the counterexample). -/
theorem mechLoading_assembly (wTip : List ℚ) (EltChannel EltTip : List ℕ)
    (C : ℕ → ℕ → ℚ) (e : ℕ) (w_loaded : ℚ)
    (i k n : ℕ) (A : List (List ℚ)) (S : List ℚ)
    (hi : i < EltChannel.length) (hk : k < EltChannel.length)
    (hn : n = EltChannel.length)
    (hsys : MakeEquationSystem_mechLoading wTip EltChannel EltTip C
      [e] w_loaded = (A, S)) :
    A.length = n + 1 ∧
    (A.getD n []).getD k 0 = (if EltChannel.getD k 0 = e then 1 else 0) ∧
    (A.getD n []).getD n 0 = 0 ∧
    (A.getD i []).getD k 0 = C (EltChannel.getD i 0) (EltChannel.getD k 0) ∧
    (A.getD i []).getD n 0 = -1 ∧
    S.getD i 0 = -(dot (EltTip.map (fun ej => C (EltChannel.getD i 0) ej)) wTip) ∧
    S.getD n 0 = w_loaded ∧
    (∀ x : List ℚ, matVec A x = S →
      dot (EltChannel.map (fun c => if c = e then (1 : ℚ) else 0)) x
        = w_loaded) ∧
    (∀ x : List ℚ, matVec A x = S → EltChannel.length ≤ x.length →
      EltChannel.getD i 0 = e →
      (∀ i2, i2 < n → i2 ≠ i → EltChannel.getD i2 0 ≠ e) →
      x.getD i 0 = w_loaded) := by
  have hA0 : A = (MakeEquationSystem_mechLoading wTip EltChannel EltTip C
      [e] w_loaded).1 := by rw [hsys]
  have hS0 : S = (MakeEquationSystem_mechLoading wTip EltChannel EltTip C
      [e] w_loaded).2 := by rw [hsys]
  subst hA0 hS0 hn
  set n := EltChannel.length with hn
  set A := (MakeEquationSystem_mechLoading wTip EltChannel EltTip C
    [e] w_loaded).1 with hAdef
  set S := (MakeEquationSystem_mechLoading wTip EltChannel EltTip C
    [e] w_loaded).2 with hSdef
  have hBlen : (hstackCol (EltChannel.map (fun ei => EltChannel.map (fun ej => C ei ej)))
      (List.replicate n (-1))).length = n := by
    rw [hstackCol_length]
    simp [n]
  have hwrow : whereEqRow EltChannel [e] =
      EltChannel.map (fun c => if c = e then (1 : ℚ) else 0) := by
    rw [whereEqRow, if_pos (by simp)]
    simp only [List.getD_cons_zero]
  have hA : A = hstackCol (EltChannel.map (fun ei => EltChannel.map (fun ej => C ei ej)))
      (List.replicate n (-1)) ++
      [(EltChannel.map (fun c => if c = e then (1 : ℚ) else 0)) ++ [0]] := by
    rw [hAdef]
    show hstackCol (EltChannel.map (fun ei => EltChannel.map (fun ej => C ei ej)))
      (List.replicate n (-1)) ++ [whereEqRow EltChannel [e] ++ [0]] = _
    rw [hwrow]
  have hS : S = (EltChannel.map (fun ei =>
      -(dot (EltTip.map (fun ej => C ei ej)) wTip))) ++ [w_loaded] := rfl
  have hlast : A.getD n [] =
      (EltChannel.map (fun c => if c = e then (1 : ℚ) else 0)) ++ [0] := by
    rw [hA]
    exact getD_concat_of_length _ _ _ _ hBlen.symm
  have hrow : ∀ m, m < n → A.getD m [] =
      (EltChannel.map (fun ej => C (EltChannel.getD m 0) ej)) ++ [-1] := by
    intro m hm
    rw [hA, List.getD_append _ _ _ _ (by omega), hstackCol_getD _ _ _
      (by simp [n]; omega) (by simp; omega)]
    rw [getD_map _ _ _ (by simp [n] at hm ⊢; omega) 0 []]
    congr 1
    rw [List.getD_eq_getElem _ _ (by simp; omega)]
    simp
  have hAlen : A.length = n + 1 := by
    rw [hA]
    simp [hBlen]
  have hsum : ∀ x : List ℚ, matVec A x = S →
      dot (EltChannel.map (fun c => if c = e then (1 : ℚ) else 0)) x
        = w_loaded := by
    intro x hx
    have h1 : (matVec A x).getD n 0 = S.getD n 0 := by rw [hx]
    rw [matVec, getD_map _ _ _ (by omega) [] 0, hlast, dot_concat_zero] at h1
    rw [h1, hS]
    exact getD_concat_of_length _ _ _ _ (by simp [n])
  refine ⟨hAlen, ?_, ?_, ?_, ?_, ?_, ?_, hsum, ?_⟩
  · rw [hlast, List.getD_append _ _ _ _ (by simpa using hk), getD_map _ _ _ hk 0 0]
  · rw [hlast]
    exact getD_concat_of_length _ _ _ _ (by simp [n])
  · rw [hrow i hi, List.getD_append _ _ _ _ (by simpa using hk),
      getD_map _ _ _ hk 0 0]
  · rw [hrow i hi]
    exact getD_concat_of_length _ _ _ _ (by simp [n])
  · rw [hS, List.getD_append _ _ _ _ (by simpa using hi), getD_map _ _ _ hi 0 0]
  · rw [hS]
    exact getD_concat_of_length _ _ _ _ (by simp [n])
  · intro x hx hxlen hmem hothers
    have h1 := hsum x hx
    rw [dot_indicator_single e EltChannel x i hi hxlen hmem hothers] at h1
    exact h1

/-- Witness for mechLoading_assembly: channel cells [3, 5] with the single
loaded element 5 and prescribed width 9; the row entries evaluate as
claimed and any solution of the assembled system carries width 9 on the
loaded cell. -/
theorem mechLoading_assembly_witness :
    ((0 : ℕ) < ([3, 5] : List ℕ).length) ∧ ((1 : ℕ) < ([3, 5] : List ℕ).length) ∧
    (let n := ([3, 5] : List ℕ).length
     let A := (MakeEquationSystem_mechLoading [7] [3, 5] [4] (fun _ _ => 0)
       [5] 9).1
     let S := (MakeEquationSystem_mechLoading [7] [3, 5] [4] (fun _ _ => 0)
       [5] 9).2
     A.length = n + 1 ∧
     (A.getD n []).getD 1 0 = (if ([3, 5] : List ℕ).getD 1 0 = 5 then 1 else 0) ∧
     (A.getD n []).getD n 0 = 0 ∧
     (A.getD 1 []).getD 1 0 = (fun _ _ => (0 : ℚ)) (([3, 5] : List ℕ).getD 1 0)
       (([3, 5] : List ℕ).getD 1 0) ∧
     (A.getD 1 []).getD n 0 = -1 ∧
     S.getD 1 0 = -(dot (([4] : List ℕ).map (fun ej => (fun _ _ => (0 : ℚ))
       (([3, 5] : List ℕ).getD 1 0) ej)) [7]) ∧
     S.getD n 0 = 9 ∧
     (∀ x : List ℚ, matVec A x = S →
       dot (([3, 5] : List ℕ).map (fun c => if c = 5 then (1 : ℚ) else 0)) x
         = 9) ∧
     (∀ x : List ℚ, matVec A x = S → ([3, 5] : List ℕ).length ≤ x.length →
       ([3, 5] : List ℕ).getD 1 0 = 5 →
       (∀ i2, i2 < n → i2 ≠ 1 → ([3, 5] : List ℕ).getD i2 0 ≠ 5) →
       x.getD 1 0 = 9)) := by
  refine ⟨by norm_num, by norm_num, ?_⟩
  exact mechLoading_assembly [7] [3, 5] [4] (fun _ _ => 0) 5 9 1 1
    ([3, 5] : List ℕ).length
    (MakeEquationSystem_mechLoading [7] [3, 5] [4] (fun _ _ => 0) [5] 9).1
    (MakeEquationSystem_mechLoading [7] [3, 5] [4] (fun _ _ => 0) [5] 9).2
    (by norm_num) (by norm_num) rfl rfl

/-! ## Self influence of an element
(src/solid/elasticity_isotropic_symmetric.py, lines 192-222)

Floating point arithmetic with square roots is modelled over the reals;
x ** 0.5 and np.sqrt on the nonnegative arguments that occur here are both
Real.sqrt. -/

/-- self_influence (lines 219-222): with half cell sizes a = hx/2 and
b = hy/2, returns Ep / (2 pi) * sqrt(a^2 + b^2) / (a b). -/
noncomputable def self_influence (hx hy Ep : ℝ) : ℝ :=
  Ep / (2 * Real.pi) * Real.sqrt ((hx / 2) ^ 2 + (hy / 2) ^ 2) / (hx / 2 * (hy / 2))

/-- The elasticity kernel of load_isotropic_elasticity_matrix_symmetric
(lines 196-199) at center offset (x, y): the four-term sum of
sqrt((a -+ x)^2 + (b -+ y)^2) / ((a -+ x)(b -+ y)) scaled by Ep / (8 pi). -/
noncomputable def elasticity_kernel (hx hy Ep x y : ℝ) : ℝ :=
  let a := hx / 2
  let b := hy / 2
  Ep / (8 * Real.pi) *
    (Real.sqrt ((a - x) ^ 2 + (b - y) ^ 2) / ((a - x) * (b - y)) +
     Real.sqrt ((a + x) ^ 2 + (b - y) ^ 2) / ((a + x) * (b - y)) +
     Real.sqrt ((a - x) ^ 2 + (b + y) ^ 2) / ((a - x) * (b + y)) +
     Real.sqrt ((a + x) ^ 2 + (b + y) ^ 2) / ((a + x) * (b + y)))

/-- C10: self_influence equals Ep/(2 pi) sqrt(a^2+b^2)/(a b) and coincides
exactly with the zero-offset value of the elasticity kernel used by
load_isotropic_elasticity_matrix_symmetric. -/
theorem self_influence_eq_kernel (hx hy Ep : ℝ) :
    self_influence hx hy Ep =
      Ep / (2 * Real.pi) * Real.sqrt ((hx / 2) ^ 2 + (hy / 2) ^ 2)
        / (hx / 2 * (hy / 2)) ∧
    self_influence hx hy Ep = elasticity_kernel hx hy Ep 0 0 := by
  refine ⟨rfl, ?_⟩
  rw [self_influence, elasticity_kernel]
  simp only [sub_zero, add_zero]
  ring

/-! ## Leak-off computation (src/time_step/ts_explicit_front.py, lines 389-428)

The LkOff array starts at zero; if the tip cells carry a positive total
leak-off coefficient their entries receive a value computed by the external
volume_integral module (parameter tipLk); if the channel cells carry a
positive total coefficient, the channel entries are overwritten with
2 Cprime (sqrt(t_since + dt) - sqrt(t_since)) ElemArea where
t_since = time - Tarrival clamped at zero (lines 408-412), and stagnant tip
entries are overwritten by the external leak_off_stagnant_tip (parameter
stagLk, lines 417-425); finally every cell whose fluid pressure does not
exceed the pore pressure is zeroed (line 428). -/
open Classical in
noncomputable def computeLkOff (EltChannel EltsTipNew stagTip : List ℕ)
    (tipLk stagLk Cprime Tarrival pFluid porePressure : ℕ → ℝ)
    (time dt EltArea : ℝ) (e : ℕ) : ℝ :=
  if pFluid e ≤ porePressure e then 0
  else if 0 < (EltChannel.map Cprime).sum ∧ e ∈ stagTip then stagLk e
  else if 0 < (EltChannel.map Cprime).sum ∧ e ∈ EltChannel then
    2 * Cprime e * (Real.sqrt (max (time - Tarrival e) 0 + dt)
      - Real.sqrt (max (time - Tarrival e) 0)) * EltArea
  else if 0 < (EltsTipNew.map Cprime).sum ∧ e ∈ EltsTipNew then tipLk e
  else 0

/-- The sum of a mapped list is positive when all terms are nonnegative and
one of them is positive. -/
theorem sum_map_pos (l : List ℕ) (f : ℕ → ℝ) (e : ℕ) (he : e ∈ l)
    (hpos : 0 < f e) (hnn : ∀ c ∈ l, 0 ≤ f c) : 0 < (l.map f).sum := by
  induction l with
  | nil => simp at he
  | cons c t ih =>
    rcases List.mem_cons.mp he with h | h
    · subst h
      have h2 : 0 ≤ (t.map f).sum := List.sum_nonneg (by
        intro x hx
        obtain ⟨y, hy, rfl⟩ := List.mem_map.mp hx
        exact hnn y (List.mem_cons_of_mem _ hy))
      simp only [List.map_cons, List.sum_cons]
      linarith
    · have h2 := ih h (fun c2 hc2 => hnn c2 (List.mem_cons_of_mem _ hc2))
      have h3 : 0 ≤ f c := hnn c (List.mem_cons_self c t)
      simp only [List.map_cons, List.sum_cons]
      linarith

/-- C8 counterexample: channel cell 0, leak-off coefficient 1, area 1,
arrival time 0, current time 1, step 3, fluid pressure above pore pressure:
the computed leak-off is 2 (sqrt 4 - sqrt 1) = 2, but the Carter increment
of the claim, Cl (sqrt(t + dt - t_arrival) - sqrt(t - t_arrival)) times the
area, is 1: the code carries an extra factor 2. -/
theorem channel_leakoff_factor_counterexample :
    computeLkOff [0] [] [] (fun _ => 0) (fun _ => 0) (fun _ => 1) (fun _ => 0)
        (fun _ => 1) (fun _ => 0) 1 3 1 0 = 2 ∧
    (1 : ℝ) * (Real.sqrt (1 + 3 - 0) - Real.sqrt (1 - 0)) * 1 = 1 ∧
    (2 : ℝ) ≠ 1 := by
  have h4 : Real.sqrt 4 = 2 := by
    rw [show (4 : ℝ) = 2 ^ 2 by norm_num, Real.sqrt_sq (by norm_num : (0 : ℝ) ≤ 2)]
  refine ⟨?_, ?_, by norm_num⟩
  · rw [computeLkOff]
    simp only [List.map_cons, List.map_nil, List.sum_cons, List.sum_nil]
    rw [if_neg (by norm_num : ¬ ((1 : ℝ) ≤ 0)),
      if_neg (by simp : ¬ ((0 : ℝ) < 1 + 0 ∧ (0 : ℕ) ∈ ([] : List ℕ))),
      if_pos (⟨by norm_num, by simp⟩ : (0 : ℝ) < 1 + 0 ∧ (0 : ℕ) ∈ [0])]
    rw [show ((1 : ℝ) - 0) ⊔ 0 = 1 from by
      rw [sub_zero]; exact max_eq_left (by norm_num)]
    norm_num [h4]
  · norm_num [h4]

/-- C8 amended: for a channel cell e with positive leak-off coefficient that
is not a stagnant tip cell, and nonnegative coefficients on the channel, the
computed leak-off is 0 when the fluid pressure does not exceed the pore
pressure and otherwise equals 2 Cprime(e) (sqrt(ts + dt) - sqrt(ts))
ElemArea with ts = max (time - Tarrival e) 0 (twice the Carter increment of
the stored coefficient, accounting for the two fracture faces); moreover
every cell whose pore pressure strictly exceeds its fluid pressure has zero
leak-off. -/
theorem channel_leakoff_spec (EltChannel EltsTipNew stagTip : List ℕ)
    (tipLk stagLk Cprime Tarrival pFluid porePressure : ℕ → ℝ)
    (time dt EltArea : ℝ) (e : ℕ)
    (he : e ∈ EltChannel) (hpos : 0 < Cprime e) (hstag : e ∉ stagTip)
    (hnn : ∀ c ∈ EltChannel, 0 ≤ Cprime c) :
    computeLkOff EltChannel EltsTipNew stagTip tipLk stagLk Cprime Tarrival
        pFluid porePressure time dt EltArea e =
      (if pFluid e ≤ porePressure e then 0 else
        2 * Cprime e * (Real.sqrt (max (time - Tarrival e) 0 + dt)
          - Real.sqrt (max (time - Tarrival e) 0)) * EltArea) ∧
    (∀ c, pFluid c < porePressure c →
      computeLkOff EltChannel EltsTipNew stagTip tipLk stagLk Cprime Tarrival
        pFluid porePressure time dt EltArea c = 0) := by
  have hsum : 0 < (EltChannel.map Cprime).sum :=
    sum_map_pos EltChannel Cprime e he hpos hnn
  constructor
  · rw [computeLkOff]
    split
    · rfl
    · rw [if_neg (fun hc => hstag hc.2), if_pos ⟨hsum, he⟩]
  · intro c hc
    rw [computeLkOff]
    rw [if_pos (le_of_lt hc)]

/-- Witness for channel_leakoff_spec at the counterexample inputs: the
leak-off of channel cell 0 evaluates to the claimed closed form. -/
theorem channel_leakoff_spec_witness :
    ((0 : ℕ) ∈ ([0] : List ℕ)) ∧ (0 : ℝ) < 1 ∧ ((0 : ℕ) ∉ ([] : List ℕ)) ∧
    (computeLkOff [0] [] [] (fun _ => 0) (fun _ => 0) (fun _ => 1)
        (fun _ => 0) (fun _ => 1) (fun _ => 0) 1 3 1 0 =
      (if (fun _ => (1 : ℝ)) 0 ≤ (fun _ => (0 : ℝ)) 0 then 0 else
        2 * (fun _ => (1 : ℝ)) 0 * (Real.sqrt (max (1 - (fun _ => (0 : ℝ)) 0) 0 + 3)
          - Real.sqrt (max (1 - (fun _ => (0 : ℝ)) 0) 0)) * 1)) := by
  refine ⟨by norm_num, by norm_num, by simp, ?_⟩
  exact (channel_leakoff_spec [0] [] [] (fun _ => 0) (fun _ => 0) (fun _ => 1)
    (fun _ => 0) (fun _ => 1) (fun _ => 0) 1 3 1 0 (by norm_num) (by norm_num)
    (by simp) (fun c _ => by norm_num)).1

/-! ## Hole plugging in get_front_region
(src/pyfrac/level_set/level_set_utils.py, lines 52-67)

The sanity-check stage of get_front_region collects the neighbors of the
current front region (np.unique of the flattened NeiElements rows), removes
the region itself (np.setdiff1d), and appends every remaining cell whose
row of neighbors shares MORE THAN THREE elements with the region
(len(np.intersect1d(front_region, nei, assume_unique=True)) > 3).
np.intersect1d sorts the concatenation of its two arguments and keeps the
entries equal to their successor; insertion sort produces that same sorted
arrangement. -/

/-- Number of positions in a list whose entry equals its successor: the
size of the selection aux[1:] == aux[:-1] that np.intersect1d performs on
the sorted concatenation aux. -/
def countAdjDups : List ℕ → ℕ
  | [] => 0
  | [_] => 0
  | a :: b :: t => (if a = b then 1 else 0) + countAdjDups (b :: t)

/-- Length of np.intersect1d(ar1, ar2, assume_unique=True). -/
def intersect1dLen (ar1 ar2 : List ℕ) : ℕ :=
  countAdjDups (List.insertionSort (· ≤ ·) (ar1 ++ ar2))

/-- The hole-plugging stage of get_front_region: cells outside the region
whose neighbor row shares more than three elements with the region are
appended to it (the source appends only when the collection is nonempty,
which yields the same list). -/
def front_region_sanity_check (nx ny : ℕ) (front_region : List ℕ) : List ℕ :=
  front_region ++
    ((((front_region.map (fun e => neiRow e nx ny)).flatten.dedup).filter
        (fun p => p ∉ front_region)).filter
      (fun p => 3 < intersect1dLen front_region (neiRow p nx ny)))

/-- C3 counterexample: on a 5-by-5 mesh with front region [7, 11, 13],
cell 12 is outside the region and exactly 3 of its 4 neighbors (11, 13, 7)
are in the region, yet the sanity check does not add it: the code requires
strictly more than 3 shared neighbors (all four sides), not 3 or more. -/
theorem holePlug_three_sides_counterexample :
    (12 : ℕ) ∉ ([7, 11, 13] : List ℕ) ∧
    3 ≤ ((neiRow 12 5 5).filter (fun x => x ∈ ([7, 11, 13] : List ℕ))).length ∧
    (12 : ℕ) ∉ front_region_sanity_check 5 5 [7, 11, 13] := by
  decide

/-- For a sorted list, the number of adjacent duplicates plus the number of
distinct values is the length. -/
theorem countAdjDups_sorted : ∀ l : List ℕ, List.Sorted (· ≤ ·) l →
    countAdjDups l + l.dedup.length = l.length := by
  intro l
  induction l with
  | nil => intro _; simp [countAdjDups]
  | cons a t ih =>
    cases t with
    | nil => intro _; simp [countAdjDups]
    | cons b t2 =>
      intro hs
      have hs2 : List.Sorted (· ≤ ·) (b :: t2) := hs.of_cons
      have hab : a ≤ b := (List.sorted_cons.mp hs).1 b (List.mem_cons_self _ _)
      have hind := ih hs2
      by_cases hab2 : a = b
      · subst hab2
        rw [show countAdjDups (a :: a :: t2) = 1 + countAdjDups (a :: t2) from by
          simp [countAdjDups]]
        rw [List.dedup_cons_of_mem (List.mem_cons_self a t2)]
        simp only [List.length_cons] at hind ⊢
        omega
      · have hnotmem : a ∉ b :: t2 := by
          intro hmem
          rcases List.mem_cons.mp hmem with h | h
          · exact hab2 h
          · exact hab2 (le_antisymm hab ((List.sorted_cons.mp hs2).1 a h))
        rw [show countAdjDups (a :: b :: t2) = countAdjDups (b :: t2) from by
          simp [countAdjDups, hab2]]
        rw [List.dedup_cons_of_not_mem hnotmem]
        simp only [List.length_cons] at hind ⊢
        omega

/-- When every entry of the second list lies in the duplicate-free first
list, the adjacent-duplicate count of the sorted concatenation is exactly
the length of the second list. -/
theorem intersect1dLen_of_subset (region nei : List ℕ) (hreg : region.Nodup)
    (hsub : ∀ x ∈ nei, x ∈ region) :
    intersect1dLen region nei = nei.length := by
  have hsorted : List.Sorted (· ≤ ·) (List.insertionSort (· ≤ ·) (region ++ nei)) :=
    List.sorted_insertionSort _ _
  have hperm : List.Perm (List.insertionSort (· ≤ ·) (region ++ nei)) (region ++ nei) :=
    List.perm_insertionSort _ _
  have hmain := countAdjDups_sorted _ hsorted
  have hlen : (List.insertionSort (· ≤ ·) (region ++ nei)).length =
      region.length + nei.length := by
    rw [hperm.length_eq]
    simp
  have hded : (List.insertionSort (· ≤ ·) (region ++ nei)).dedup.length =
      region.length := by
    rw [hperm.dedup.length_eq]
    rw [← List.card_toFinset, List.toFinset_append,
      Finset.union_eq_left.mpr (fun x hx => by
        rw [List.mem_toFinset] at hx ⊢
        exact hsub x hx)]
    rw [List.card_toFinset, hreg.dedup]
  rw [intersect1dLen]
  omega

/-- C3 amended: a cell outside the front region all FOUR of whose grid
neighbors lie in the (duplicate-free) front region is added by the
hole-plugging stage; surrounded on three sides is not enough. -/
theorem holePlug_four_sides (nx ny : ℕ) (region : List ℕ) (c : ℕ)
    (hnodup : region.Nodup) (hc : c < nx * ny) (hout : c ∉ region)
    (hnei : ∀ x ∈ neiRow c nx ny, x ∈ region) :
    c ∈ front_region_sanity_check nx ny region := by
  have hnx : 0 < nx := by
    rcases Nat.eq_zero_or_pos nx with h | h
    · subst h; simp at hc
    · exact h
  have hny : 0 < ny := by
    rcases Nat.eq_zero_or_pos ny with h | h
    · subst h; simp at hc
    · exact h
  have hi_lt : c % nx < nx := Nat.mod_lt _ hnx
  have hj_lt : c / nx < ny := Nat.div_lt_of_lt_mul hc
  have hdm : c / nx * nx + c % nx = c := by
    have := Nat.div_add_mod c nx
    rw [Nat.mul_comm] at this
    exact this
  have hL : (Neighbors c nx ny).1 ∈ region := hnei _ (by simp [neiRow])
  have hi0 : c % nx ≠ 0 := by
    intro h
    apply hout
    have he : (Neighbors c nx ny).1 = c := by simp [Neighbors, h]
    rwa [he] at hL
  have hLval : (Neighbors c nx ny).1 = c / nx * nx + c % nx - 1 := by
    simp only [Neighbors, if_neg hi0]
  have hmodpos : 1 ≤ c % nx := Nat.pos_of_ne_zero hi0
  -- c is a neighbor of its left neighbor, so it is in the probing set
  have hdreg : c / nx * nx + c % nx - 1 ∈ region := by
    rw [← hLval]; exact hL
  have hd_form : c / nx * nx + c % nx - 1 = c / nx * nx + (c % nx - 1) := by omega
  have hd_mod : (c / nx * nx + c % nx - 1) % nx = c % nx - 1 := by
    rw [hd_form, Nat.mul_comm, Nat.mul_add_mod]
    exact Nat.mod_eq_of_lt (by omega)
  have hd_div : (c / nx * nx + c % nx - 1) / nx = c / nx := by
    rw [hd_form, Nat.mul_comm, Nat.mul_add_div hnx]
    rw [Nat.div_eq_of_lt (show c % nx - 1 < nx by omega)]
    omega
  have hRd : (Neighbors (c / nx * nx + c % nx - 1) nx ny).2.1 = c := by
    simp only [Neighbors]
    rw [if_neg (by rw [hd_mod]; omega)]
    rw [hd_mod, hd_div]
    omega
  have hflat : c ∈ (region.map (fun e => neiRow e nx ny)).flatten := by
    refine List.mem_flatten.mpr ⟨neiRow (c / nx * nx + c % nx - 1) nx ny,
      List.mem_map_of_mem _ hdreg, ?_⟩
    rw [neiRow]
    simp only [List.mem_cons]
    exact Or.inr (Or.inl hRd.symm)
  have hcount : intersect1dLen region (neiRow c nx ny) = 4 := by
    rw [intersect1dLen_of_subset region _ hnodup hnei]
    simp [neiRow]
  rw [front_region_sanity_check]
  refine List.mem_append.mpr (Or.inr ?_)
  refine List.mem_filter.mpr ⟨List.mem_filter.mpr ⟨List.mem_dedup.mpr hflat, ?_⟩, ?_⟩
  · simpa using hout
  · rw [hcount]
    simp

/-- Witness for holePlug_four_sides: on a 5-by-5 mesh with front region
[7, 11, 13, 17], cell 12 has all four neighbors in the region and is added
by the sanity check. -/
theorem holePlug_four_sides_witness :
    ([7, 11, 13, 17] : List ℕ).Nodup ∧ (12 : ℕ) < 5 * 5 ∧
    (12 : ℕ) ∉ ([7, 11, 13, 17] : List ℕ) ∧
    (∀ x ∈ neiRow 12 5 5, x ∈ ([7, 11, 13, 17] : List ℕ)) ∧
    (12 : ℕ) ∈ front_region_sanity_check 5 5 [7, 11, 13, 17] :=
  ⟨by decide, by decide, by decide, by decide,
    holePlug_four_sides 5 5 [7, 11, 13, 17] 12 (by decide) (by decide)
      (by decide) (by decide)⟩

end PyFrac
